import Mathlib

/-!
Verification development for an STM32H7 ADC-to-spectrum pipeline
(`src/main.rs`).  The program fills a 1024-slot `u16` buffer by DMA,
widens the samples to `f32`, removes the DC offset with
`normalize_slice`, computes a 1024-point real FFT (`microfft`) and
reports the 512 bin magnitudes.

Modelling conventions:
* `u16` samples are natural numbers (`< 65536` where it matters);
* `f32` arithmetic is modelled by exact rationals `ℚ` (every `u16`
  value is exactly representable in `f32`, and the claims under
  scrutiny speak about exact real arithmetic), except where NaN
  behaviour itself is the claim, where a dedicated `F32` type with a
  `nan` value is used;
* the fixed-size arrays `[u16; 1024]` / `[f32; 1024]` are functions
  `Fin 1024 → _` or the corresponding `List.ofFn` slices;
* `microfft::real::rfft_1024` is external-crate code, modelled from the
  spec as the first `N/2` bins of the `N`-point discrete Fourier
  transform of the real input (DC at index 0).
-/

set_option linter.unusedVariables false
set_option maxRecDepth 8192

open scoped BigOperators

/-- Source constant `SIZE = 1024`, the number of ADC samples. -/
def SIZE : ℕ := 1024

/-- Model of `fn normalize_slice(slice: &mut [f32]) -> f32` from
`src/main.rs` lines 29-36: left-fold sum starting at `0.0`, mean is
the sum divided by the length, every element is replaced in place by
itself minus the mean, and the mean is returned.  In-place mutation is
modelled by returning the new slice contents together with the mean. -/
def normalize_slice (slice : List ℚ) : List ℚ × ℚ :=
  let sum := slice.foldl (fun acc f => acc + f) 0
  let mean := sum / (slice.length : ℚ)
  (slice.map (fun f => f - mean), mean)

/-- The left fold of `+` over a list starting from an accumulator is the
accumulator plus the list sum. -/
lemma foldl_add_eq_sum (l : List ℚ) :
    ∀ acc : ℚ, l.foldl (fun acc f => acc + f) acc = acc + l.sum := by
  induction l with
  | nil => intro acc; simp
  | cons a t ih =>
    intro acc
    simp only [List.foldl_cons, List.sum_cons, ih (acc + a)]
    ring

/-- Subtracting a constant from every element shifts the sum by the
length times that constant. -/
lemma sum_map_sub (l : List ℚ) (m : ℚ) :
    (l.map (fun f => f - m)).sum = l.sum - (l.length : ℚ) * m := by
  induction l with
  | nil => simp
  | cons a t ih =>
    simp only [List.map_cons, List.sum_cons, List.length_cons, ih]
    push_cast
    ring

/-- C1: for every non-empty slice, `normalize_slice` returns the
arithmetic mean (left-fold sum divided by the length), replaces every
element in place by that element minus the mean, and the mean of the
resulting slice is exactly 0 (in the exact-real model of `f32`). -/
theorem normalize_slice_spec (l : List ℚ) (h : l ≠ []) :
    (normalize_slice l).2 = l.sum / (l.length : ℚ) ∧
    (normalize_slice l).1 = l.map (fun f => f - l.sum / (l.length : ℚ)) ∧
    ((normalize_slice l).1.sum / ((normalize_slice l).1.length : ℚ)) = 0 := by
  have hlen : (l.length : ℚ) ≠ 0 := by
    simpa using List.length_eq_zero.not.mpr h
  have hsum : l.foldl (fun acc f => acc + f) 0 = l.sum := by
    simpa using foldl_add_eq_sum l 0
  refine ⟨?_, ?_, ?_⟩
  · simp [normalize_slice, hsum]
  · simp [normalize_slice, hsum]
  · have hzero : ((normalize_slice l).1).sum = 0 := by
      simp only [normalize_slice, hsum, sum_map_sub]
      field_simp
    simp [hzero]

/-- Witness for C1 at the concrete slice `[1, 2, 3]`. -/
theorem normalize_slice_spec_witness :
    ([1, 2, 3] : List ℚ) ≠ [] ∧
    ((normalize_slice [1, 2, 3]).2 =
        ([1, 2, 3] : List ℚ).sum / (([1, 2, 3] : List ℚ).length : ℚ) ∧
      (normalize_slice [1, 2, 3]).1 =
        ([1, 2, 3] : List ℚ).map
          (fun f => f - ([1, 2, 3] : List ℚ).sum / (([1, 2, 3] : List ℚ).length : ℚ)) ∧
      ((normalize_slice [1, 2, 3]).1.sum /
          ((normalize_slice [1, 2, 3]).1.length : ℚ)) = 0) :=
  ⟨by decide, normalize_slice_spec [1, 2, 3] (by decide)⟩

/-- Minimal IEEE-style model of `f32` for the one claim where NaN
matters: a value is either a finite number (exact rational) or NaN.
Signed infinities are not modelled: in `normalize_slice` the only
division is `sum / len`, and a zero divisor only arises for the empty
slice, where the dividend (the fold of `+` starting at `0.0`) is
exactly `0.0`, the `0.0 / 0.0 = NaN` case. -/
inductive F32 where
  | num (val : ℚ)
  | nan
  deriving DecidableEq

/-- IEEE addition on the modelled values: NaN propagates. -/
def F32.add : F32 → F32 → F32
  | F32.num a, F32.num b => F32.num (a + b)
  | _, _ => F32.nan

/-- IEEE subtraction on the modelled values: NaN propagates. -/
def F32.sub : F32 → F32 → F32
  | F32.num a, F32.num b => F32.num (a - b)
  | _, _ => F32.nan

/-- IEEE division on the modelled values: NaN propagates, and a zero
divisor yields NaN (the only zero-divisor case reachable from
`normalize_slice` is `0.0 / 0.0`, which is NaN). -/
def F32.div : F32 → F32 → F32
  | F32.num a, F32.num b => if b = 0 then F32.nan else F32.num (a / b)
  | _, _ => F32.nan

/-- Model of `normalize_slice` over the NaN-aware `f32` values,
line for line the same computation as the source: fold `+` from `0.0`,
divide by the length, subtract the mean from each element in place,
return the mean.  It is a total function: no code path panics. -/
def normalize_sliceF (slice : List F32) : List F32 × F32 :=
  let sum := slice.foldl F32.add (F32.num 0)
  let mean := F32.div sum ((F32.num (slice.length : ℚ)))
  (slice.map (fun f => F32.sub f mean), mean)

/-- C9: `normalize_slice` on the empty slice does not panic: the fold
gives `0.0`, the division `0.0 / 0` gives NaN, the (empty) slice is
unchanged, and NaN is returned as the mean. -/
theorem normalize_sliceF_empty : normalize_sliceF [] = ([], F32.nan) := by
  decide

/-- Model of the sample-widening loop of `main` (`src/main.rs` lines
126-136): `samples[i] = buffer[i] as f32` for every index in order,
over the full 1024-element buffer.  `u16 as f32` is value-preserving,
so the widening is the exact cast `ℕ → ℚ`. -/
def widenSamples (buf : Fin SIZE → ℕ) : List ℚ :=
  List.ofFn (fun i => ((buf i : ℕ) : ℚ))

/-- Reading a slice built by `List.ofFn` at an in-range index recovers
the generating function. -/
lemma getD_ofFn {α : Type} {n : ℕ} (f : Fin n → α) (i : Fin n) (d : α) :
    (List.ofFn f).getD (i : ℕ) d = f i := by
  have hi : (i : ℕ) < (List.ofFn f).length := by
    rw [List.length_ofFn]; exact i.isLt
  rw [List.getD_eq_getElem _ _ hi, List.getElem_ofFn]

/-- C3: widening maps each of the 1024 `u16` samples to a
floating-point value exactly equal to it, in the same index order and
with the same length; every `u16` value is below `2^24`, so the `ℕ → ℚ`
cast used here agrees with the (lossless on this domain) `u16 → f32`
conversion. -/
theorem widenSamples_spec (buf : Fin SIZE → ℕ) (h : ∀ i, buf i < 65536) :
    (widenSamples buf).length = SIZE ∧
    (∀ i : Fin SIZE, (widenSamples buf).getD (i : ℕ) 0 = (buf i : ℚ)) ∧
    (∀ i : Fin SIZE, buf i < 2 ^ 24) := by
  refine ⟨?_, ?_, ?_⟩
  · rw [widenSamples]; exact List.length_ofFn _
  · intro i
    rw [widenSamples]; exact getD_ofFn _ i 0
  · intro i
    calc buf i < 65536 := h i
      _ < 2 ^ 24 := by norm_num

/-- Witness for C3 at the concrete buffer `buf i = i`. -/
theorem widenSamples_spec_witness :
    (∀ i : Fin SIZE, (fun j : Fin SIZE => (j : ℕ)) i < 65536) ∧
    ((widenSamples (fun j : Fin SIZE => (j : ℕ))).length = SIZE ∧
      (∀ i : Fin SIZE,
        (widenSamples (fun j : Fin SIZE => (j : ℕ))).getD (i : ℕ) 0 =
          (((fun j : Fin SIZE => (j : ℕ)) i : ℕ) : ℚ)) ∧
      (∀ i : Fin SIZE, (fun j : Fin SIZE => (j : ℕ)) i < 2 ^ 24)) :=
  have h : ∀ i : Fin SIZE, (fun j : Fin SIZE => (j : ℕ)) i < 65536 :=
    fun i => lt_of_lt_of_le i.isLt (by norm_num [SIZE])
  ⟨h, widenSamples_spec (fun j : Fin SIZE => (j : ℕ)) h⟩

/-- Model of the integer averaging fold of `main` (`src/main.rs` lines
121-123): `target_buffer.iter().fold(0u32, |acc, f| acc + *f as u32)`.
`u32` addition wraps modulo `2^32`, so each step is taken modulo
`2^32`. -/
def sumU32 (buf : Fin SIZE → ℕ) : ℕ :=
  (List.ofFn buf).foldl (fun acc f => (acc + f) % 4294967296) 0

/-- A fold of wrapping `u32` addition whose exact running total never
reaches `2^32` computes the exact sum. -/
lemma foldl_mod_eq_sum (l : List ℕ) :
    ∀ acc : ℕ, acc + l.sum < 4294967296 →
      l.foldl (fun acc f => (acc + f) % 4294967296) acc = acc + l.sum := by
  induction l with
  | nil => intro acc _; simp
  | cons a t ih =>
    intro acc hbound
    have hstep : (acc + a) % 4294967296 = acc + a := by
      apply Nat.mod_eq_of_lt
      have : acc + a ≤ acc + (a + t.sum) := by omega
      simpa [List.sum_cons] using lt_of_le_of_lt this hbound
    have hrec : (acc + a) + t.sum < 4294967296 := by
      simpa [List.sum_cons, Nat.add_assoc] using hbound
    simp only [List.foldl_cons, hstep, ih (acc + a) hrec, List.sum_cons]
    omega

/-- C5: the `u32` accumulation of the 1024-sample mean cannot overflow:
the maximum possible sum `1024 * 65535 = 67107840` is below `2^32`, so
for every buffer of `u16` samples the wrapping `u32` fold equals the
exact mathematical sum of the samples. -/
theorem sumU32_exact (buf : Fin SIZE → ℕ) (h : ∀ i, buf i < 65536) :
    SIZE * 65535 < 2 ^ 32 ∧ sumU32 buf = ∑ i : Fin SIZE, buf i := by
  have hsum : (List.ofFn buf).sum = ∑ i : Fin SIZE, buf i := List.sum_ofFn
  have hle : (List.ofFn buf).sum ≤ SIZE * 65535 := by
    rw [hsum]
    calc ∑ i : Fin SIZE, buf i ≤ ∑ _i : Fin SIZE, 65535 :=
          Finset.sum_le_sum (fun i _ => Nat.le_of_lt_succ (h i))
      _ = SIZE * 65535 := by
          rw [Finset.sum_const, Finset.card_univ, Fintype.card_fin, smul_eq_mul]
  have hbig : SIZE * 65535 < 2 ^ 32 := by norm_num [SIZE]
  refine ⟨hbig, ?_⟩
  have hbound : 0 + (List.ofFn buf).sum < 4294967296 := by
    have : (2 : ℕ) ^ 32 = 4294967296 := by norm_num
    omega
  rw [sumU32, foldl_mod_eq_sum _ 0 hbound, Nat.zero_add, hsum]

/-- Witness for C5 at the all-maximal buffer `buf i = 65535`. -/
theorem sumU32_exact_witness :
    (∀ i : Fin SIZE, (fun _ : Fin SIZE => 65535) i < 65536) ∧
    (SIZE * 65535 < 2 ^ 32 ∧
      sumU32 (fun _ : Fin SIZE => 65535) =
        ∑ i : Fin SIZE, (fun _ : Fin SIZE => 65535) i) :=
  have h : ∀ i : Fin SIZE, (fun _ : Fin SIZE => 65535) i < 65536 :=
    fun _ => by norm_num
  ⟨h, sumU32_exact (fun _ : Fin SIZE => 65535) h⟩

/-- Model of the `BUFFER` region before initialization: 1024 slots of
`MaybeUninit<u16>`, a slot being `none` while uninitialized. -/
def uninitBuffer : Fin SIZE → Option ℕ := fun _ => none

/-- Model of the initialization loop of `adc_buffer` (`src/main.rs`
lines 49-60): for each slot in index order, write the literal `0`
directly into the slot's storage. -/
def writeZeros (st : Fin SIZE → Option ℕ) : Fin SIZE → Option ℕ :=
  (List.finRange SIZE).foldl (fun s i => Function.update s i (some 0)) st

/-- Model of the final `mem::transmute` to `&'static mut [u16; SIZE]`:
the region may be reinterpreted as an initialized array only if every
slot has been written; a consumer can then read each slot's value.  If
any slot were still uninitialized, no array would be produced (no
garbage value is ever exposed). -/
def finalizeBuffer (st : Fin SIZE → Option ℕ) : Option (Fin SIZE → ℕ) :=
  if h : ∀ i, (st i).isSome = true then some (fun i => (st i).get (h i))
  else none

/-- The `adc_buffer` value of `main`: the uninitialized region, zeroed
slot by slot, then reinterpreted as an initialized array. -/
def adc_buffer : Option (Fin SIZE → ℕ) :=
  finalizeBuffer (writeZeros uninitBuffer)

/-- After folding zero-writes over a list of indices, a slot holds
`some 0` if its index was in the list, and is untouched otherwise. -/
lemma writeZeros_foldl (L : List (Fin SIZE)) :
    ∀ (st : Fin SIZE → Option ℕ) (i : Fin SIZE),
      (L.foldl (fun s j => Function.update s j (some 0)) st) i =
        if i ∈ L then some 0 else st i := by
  induction L with
  | nil => intro st i; simp
  | cons j t ih =>
    intro st i
    rw [List.foldl_cons, ih]
    by_cases hmem : i ∈ t
    · simp [hmem]
    · by_cases hij : i = j
      · subst hij; simp [hmem, Function.update_same]
      · simp [hmem, hij, Function.update_noteq hij]

/-- Every slot of the fully written region holds `some 0`. -/
lemma writeZeros_uninit (i : Fin SIZE) : writeZeros uninitBuffer i = some 0 := by
  rw [writeZeros, writeZeros_foldl]
  simp [List.mem_finRange]

/-- C4: after the buffer initializer runs (writing `0` into each of the
1024 slots in index order, then reinterpreting the region as an
initialized array), the reinterpretation succeeds — no slot can expose
an uninitialized value — and reading slot `i` yields exactly `0` for
every `i`. -/
theorem adc_buffer_spec :
    (∀ i : Fin SIZE, writeZeros uninitBuffer i = some 0) ∧
    adc_buffer = some (fun _ => 0) := by
  refine ⟨writeZeros_uninit, ?_⟩
  rw [adc_buffer, finalizeBuffer]
  have hall : ∀ i, ((writeZeros uninitBuffer) i).isSome = true := by
    intro i; rw [writeZeros_uninit i]; rfl
  rw [dif_pos hall]
  refine congrArg some (funext fun i => ?_)
  have := writeZeros_uninit i
  simp [this]

/-- Magnitude of a complex FFT bin as computed by the report loop of
`main` (`src/main.rs` line 152): `value.norm_sqr().sqrt()`, the square
root of the sum of the squares of the real and imaginary components. -/
noncomputable def magnitude (c : ℂ) : ℝ :=
  Real.sqrt (Complex.normSq c)

/-- Model of the report loop of `main` (`src/main.rs` lines 150-154):
for each bin index `i` of the 512-bin spectrum, in increasing order,
emit the record `(i, magnitude of bin i)`. -/
noncomputable def reportRecords (spectrum : Fin 512 → ℂ) : List (ℕ × ℝ) :=
  List.ofFn (fun i : Fin 512 => ((i : ℕ), magnitude (spectrum i)))

/-- C6: the report phase emits exactly `N/2 = 512` records, record `i`
(taken in increasing index order) carries `(i, sqrt(re_i^2 + im_i^2))`
— which is the complex absolute value of bin `i` — and every reported
magnitude is non-negative. -/
theorem reportRecords_spec (s : Fin 512 → ℂ) :
    (reportRecords s).length = 512 ∧
    (∀ i : Fin 512,
      (reportRecords s).getD (i : ℕ) (0, 0) =
        ((i : ℕ), Real.sqrt ((s i).re ^ 2 + (s i).im ^ 2))) ∧
    (∀ i : Fin 512, magnitude (s i) = Complex.abs (s i)) ∧
    (∀ i : Fin 512, 0 ≤ magnitude (s i)) := by
  refine ⟨?_, ?_, ?_, ?_⟩
  · rw [reportRecords]; exact List.length_ofFn _
  · intro i
    rw [reportRecords, getD_ofFn]
    have hsq : Complex.normSq (s i) = (s i).re ^ 2 + (s i).im ^ 2 := by
      rw [Complex.normSq_apply]; ring
    rw [magnitude, hsq]
  · intro i
    rw [magnitude, Complex.abs_apply]
  · intro i
    exact Real.sqrt_nonneg _

/-- Events of the acquisition phase of `main`, in source program order
(`src/main.rs` lines 108-121): the DMA transfer is started, the second
`&'static mut` reference to `BUFFER` is created by `mem::transmute`,
the busy-poll loop observes the transfer-complete flag true, and the
CPU then reads the buffer (the `u32` averaging fold). -/
inductive AcqEvent where
  | startTransfer
  | takeSecondRef
  | observeFlagTrue
  | readBuffer
  deriving DecidableEq

/-- The acquisition phase of `main` in source program order: the
`transfer.start(..)` call (line 108), the `target_buffer` transmute
(line 115), the `while !transfer.get_transfer_complete_flag() {}` wait
(line 118), and the first CPU read of the buffer (line 121). -/
def mainAcqTrace : List AcqEvent :=
  [AcqEvent.startTransfer, AcqEvent.takeSecondRef,
   AcqEvent.observeFlagTrue, AcqEvent.readBuffer]

/-- Model of the busy-poll loop `while !flag {}` against an abstract
flag trace: starting at time `t`, return the first time the flag is
observed true, with enough fuel; `none` models a transfer that never
completes within the fuel (the real loop hangs forever). -/
def pollFirst (flag : ℕ → Bool) : ℕ → ℕ → Option ℕ
  | 0, _ => none
  | fuel + 1, t => if flag t then some t else pollFirst flag fuel (t + 1)

/-- C7 counterexample: in the source program order, the second
`&'static mut` reference to the sample buffer is created (index 1 in
the acquisition trace) strictly before the transfer-complete flag is
observed true (index 2), so the second reference is not taken only
after the flag has been observed true. -/
theorem secondRef_taken_before_flag :
    mainAcqTrace.indexOf AcqEvent.takeSecondRef = 1 ∧
    mainAcqTrace.indexOf AcqEvent.observeFlagTrue = 2 ∧
    mainAcqTrace.indexOf AcqEvent.takeSecondRef <
      mainAcqTrace.indexOf AcqEvent.observeFlagTrue := by
  decide

/-- C7 (amended): the CPU reads the sample buffer only after the
transfer-complete flag has been observed true (in the acquisition
trace, the read is strictly after the flag observation, though the
second reference itself is created before the wait loop), and the
busy-poll loop does not exit early: whenever polling from time `t`
exits at time `u`, the flag is true at `u` and was false at every
polled instant before `u`. -/
theorem acquisition_reads_after_flag :
    (mainAcqTrace.indexOf AcqEvent.observeFlagTrue <
        mainAcqTrace.indexOf AcqEvent.readBuffer ∧
      mainAcqTrace.indexOf AcqEvent.takeSecondRef <
        mainAcqTrace.indexOf AcqEvent.observeFlagTrue) ∧
    ∀ (flag : ℕ → Bool) (fuel t u : ℕ),
      pollFirst flag fuel t = some u →
      flag u = true ∧ ∀ s, t ≤ s → s < u → flag s = false := by
  refine ⟨by decide, ?_⟩
  intro flag fuel
  induction fuel with
  | zero => intro t u h; simp [pollFirst] at h
  | succ n ih =>
    intro t u h
    rw [pollFirst] at h
    by_cases hf : flag t
    · rw [if_pos hf] at h
      obtain rfl : t = u := Option.some.inj h
      exact ⟨hf, fun s hts hsu => absurd (lt_of_le_of_lt hts hsu) (lt_irrefl t)⟩
    · rw [if_neg hf] at h
      obtain ⟨hu, hprev⟩ := ih (t + 1) u h
      refine ⟨hu, fun s hts hsu => ?_⟩
      by_cases hst : s = t
      · subst hst; exact Bool.not_eq_true (flag s) ▸ (by simpa using hf)
      · exact hprev s (by omega) hsu

/-- Witness for C7 (amended) on a concrete flag trace that first turns
true at time 2: polling from time 0 with fuel 10 exits at time 2, and
the theorem yields that the flag is true there and false before. -/
theorem acquisition_reads_after_flag_witness :
    (fun n => decide (n = 2)) 2 = true ∧
    ∀ s, 0 ≤ s → s < 2 → (fun n => decide (n = 2)) s = false :=
  acquisition_reads_after_flag.2 (fun n => decide (n = 2)) 10 0 2 (by decide)

/-- Modelled from the spec: the discrete Fourier transform of an
`n`-point complex sequence, bin `k` being
`∑ j, x j * exp(-2πi·j·k/n)`.  The `microfft` crate that computes the
FFT is external-collaborator code not present in this repository. -/
noncomputable def dft (n : ℕ) (x : Fin n → ℂ) (k : ℕ) : ℂ :=
  ∑ j : Fin n, x j *
    Complex.exp (-(2 * (Real.pi : ℂ) * Complex.I) * ((j : ℕ) : ℂ) * (k : ℂ) / (n : ℂ))

/-- Modelled from the spec: `microfft::real::rfft_1024`, the real FFT
of a 1024-point real signal, producing the `N/2 = 512` usable complex
bins (DC at index 0) — the first 512 bins of the 1024-point DFT of the
real input. -/
noncomputable def rfft_1024 (x : Fin SIZE → ℝ) (k : Fin 512) : ℂ :=
  dft SIZE (fun j => ((x j : ℝ) : ℂ)) (k : ℕ)

/-- The spectrum computed by `main` from a raw sample buffer: widen the
samples, normalize them in place, then take the real FFT of the
normalized slice. -/
noncomputable def pipelineSpectrum (buf : Fin SIZE → ℕ) : Fin 512 → ℂ :=
  rfft_1024
    (fun j => (((normalize_slice (widenSamples buf)).1.getD (j : ℕ) 0 : ℚ) : ℝ))

/-- The per-bin magnitudes reported by `main` from a raw sample
buffer. -/
noncomputable def pipelineMagnitudes (buf : Fin SIZE → ℕ) (k : Fin 512) : ℝ :=
  magnitude (pipelineSpectrum buf k)

/-- Normalizing a constant slice yields the constant as the mean and
the all-zero slice. -/
lemma normalize_slice_replicate (n : ℕ) (hn : n ≠ 0) (c : ℚ) :
    normalize_slice (List.replicate n c) = (List.replicate n 0, c) := by
  have hsum : (List.replicate n c).foldl (fun acc f => acc + f) 0 =
      (n : ℚ) * c := by
    rw [foldl_add_eq_sum, List.sum_replicate, zero_add, nsmul_eq_mul]
  have hlen : ((List.replicate n c).length : ℚ) = (n : ℚ) := by
    rw [List.length_replicate]
  have hnq : (n : ℚ) ≠ 0 := Nat.cast_ne_zero.mpr hn
  have hmean : (n : ℚ) * c / (n : ℚ) = c := by
    field_simp
  rw [normalize_slice]
  simp only [hsum, hlen, hmean, List.map_replicate, sub_self]

/-- The magnitude of the zero bin is zero. -/
lemma magnitude_zero : magnitude 0 = 0 := by
  rw [magnitude, map_zero, Real.sqrt_zero]

/-- A DFT bin of the identically-zero signal is zero. -/
lemma dft_zero (n k : ℕ) : dft n (fun _ => 0) k = 0 := by
  rw [dft]
  simp

/-- C2: for the constant buffer of value 1000 repeated 1024 times,
`normalize_slice` returns mean `1000` and leaves all 1024 values
exactly `0`, and the subsequent real FFT of that all-zero slice yields
512 bins whose magnitudes are all exactly `0` (in the exact-real model
of `f32`). -/
theorem constant_buffer_spec :
    (normalize_slice (widenSamples (fun _ : Fin SIZE => 1000))).2 = 1000 ∧
    (normalize_slice (widenSamples (fun _ : Fin SIZE => 1000))).1 =
      List.replicate SIZE 0 ∧
    ∀ k : Fin 512, pipelineMagnitudes (fun _ : Fin SIZE => 1000) k = 0 := by
  have hw : widenSamples (fun _ : Fin SIZE => 1000) =
      List.replicate SIZE (1000 : ℚ) := by
    rw [widenSamples]
    exact List.ofFn_const SIZE (1000 : ℚ)
  have hn : normalize_slice (widenSamples (fun _ : Fin SIZE => 1000)) =
      (List.replicate SIZE 0, 1000) := by
    rw [hw]
    exact normalize_slice_replicate SIZE (by norm_num [SIZE]) 1000
  refine ⟨by rw [hn], by rw [hn], ?_⟩
  intro k
  have hfun : (fun j : Fin SIZE =>
      ((((normalize_slice (widenSamples (fun _ : Fin SIZE => 1000))).1.getD
          (j : ℕ) 0 : ℚ) : ℝ) : ℂ)) = fun _ => 0 := by
    funext j
    rw [hn]
    have : (List.replicate SIZE (0 : ℚ)).getD (j : ℕ) 0 = 0 := by
      rw [List.getD_eq_getElem?_getD, List.getElem?_getD_replicate_default_eq]
    rw [this]
    norm_num
  rw [pipelineMagnitudes, pipelineSpectrum, rfft_1024, hfun, dft_zero,
    magnitude_zero]

/-- The alternating input buffer `[0, 65535, 0, 65535, ...]` of the
end-to-end scenario. -/
def altBuf : Fin SIZE → ℕ :=
  fun i => if (i : ℕ) % 2 = 0 then 0 else 65535

/-- The alternating buffer after widening and mean removal: slot `j`
holds its widened sample minus the mean `65535 / 2`. -/
def altNorm : Fin SIZE → ℚ :=
  fun j => (if (j : ℕ) % 2 = 0 then 0 else 65535) - 65535 / 2

/-- Sum of the alternating values over an even-length range. -/
lemma sum_range_alt (c : ℚ) (m : ℕ) :
    ∑ i ∈ Finset.range (2 * m), (if i % 2 = 0 then (0 : ℚ) else c) = m * c := by
  induction m with
  | zero => simp
  | succ m ih =>
    have h2 : 2 * (m + 1) = 2 * m + 1 + 1 := by ring
    have he : (2 * m) % 2 = 0 := by omega
    have ho : (2 * m + 1) % 2 = 1 := by omega
    rw [h2, Finset.sum_range_succ, Finset.sum_range_succ, ih, he, ho]
    push_cast
    norm_num
    ring

/-- Widening the alternating buffer gives the alternating rational
slice. -/
lemma widen_altBuf :
    widenSamples altBuf =
      List.ofFn (fun j : Fin SIZE => if (j : ℕ) % 2 = 0 then (0 : ℚ) else 65535) := by
  rw [widenSamples]
  congr 1
  funext j
  rw [altBuf]
  by_cases hj : (j : ℕ) % 2 = 0 <;> simp [hj]

/-- Normalizing the widened alternating buffer returns the mean
`65535 / 2 = 32767.5` and the slice of `altNorm` values. -/
lemma alt_normalized :
    normalize_slice (widenSamples altBuf) = (List.ofFn altNorm, 65535 / 2) := by
  have hsum : (List.ofFn (fun j : Fin SIZE =>
      if (j : ℕ) % 2 = 0 then (0 : ℚ) else 65535)).sum = 512 * 65535 := by
    rw [List.sum_ofFn,
      Fin.sum_univ_eq_sum_range (fun i => if i % 2 = 0 then (0 : ℚ) else 65535) SIZE]
    have h1024 : SIZE = 2 * 512 := by norm_num [SIZE]
    rw [h1024, sum_range_alt]
    norm_num
  rw [widen_altBuf]
  simp only [normalize_slice, foldl_add_eq_sum, hsum, List.length_ofFn, zero_add]
  have hmean : (512 * 65535 : ℚ) / ((SIZE : ℕ) : ℚ) = 65535 / 2 := by
    norm_num [SIZE]
  rw [hmean, List.map_ofFn]
  congr 1

/-- Each normalized alternating sample, viewed in `ℂ`, is
`-(65535/2) * (-1)^j`. -/
lemma altNorm_cast (j : Fin SIZE) :
    (((altNorm j : ℚ) : ℝ) : ℂ) = (-(65535 / 2) : ℂ) * (-1) ^ (j : ℕ) := by
  rw [altNorm]
  by_cases hj : (j : ℕ) % 2 = 0
  · have he : Even (j : ℕ) := Nat.even_iff.mpr hj
    rw [if_pos hj, he.neg_one_pow]
    push_cast
    ring
  · have ho : Odd (j : ℕ) := Nat.odd_iff.mpr (by omega)
    rw [if_neg hj, ho.neg_one_pow]
    push_cast
    ring

/-- The product of pi and the imaginary unit is nonzero. -/
lemma pi_mul_I_ne_zero : ((Real.pi : ℂ)) * Complex.I ≠ 0 :=
  mul_ne_zero (Complex.ofReal_ne_zero.mpr Real.pi_ne_zero) Complex.I_ne_zero

/-- For every reported bin `k < 512`, the DFT of the alternating
(Nyquist-frequency) signal `j ↦ a * (-1)^j` vanishes: its entire
energy sits at bin 512, outside the reported range. -/
lemma dft_alternating (a : ℂ) (k : ℕ) (hk : k < 512) :
    dft SIZE (fun j => a * (-1) ^ (j : ℕ)) k = 0 := by
  have hSIZE : ((SIZE : ℕ) : ℂ) = 1024 := by norm_num [SIZE]
  set z : ℂ := -(2 * (Real.pi : ℂ) * Complex.I) * (k : ℂ) / ((SIZE : ℕ) : ℂ) with hz
  set e : ℂ := Complex.exp z with he
  have hne : -e ≠ 1 := by
    intro h
    have he1 : Complex.exp z = Complex.exp ((Real.pi : ℂ) * Complex.I) := by
      rw [Complex.exp_pi_mul_I, ← he]
      linear_combination -h
    obtain ⟨m, hm⟩ := Complex.exp_eq_exp_iff_exists_int.mp he1
    rw [hz, hSIZE] at hm
    have key : ((-2 * (k : ℂ)) - (1024 + 2048 * (m : ℂ))) *
        ((Real.pi : ℂ) * Complex.I) = 0 := by
      linear_combination (1024 : ℂ) * hm
    have hfac := (mul_eq_zero.mp key).resolve_right pi_mul_I_ne_zero
    have hC : (-2 * (k : ℂ)) = 1024 + 2048 * (m : ℂ) := by
      linear_combination hfac
    have hZ : (-2 * (k : ℤ)) = 1024 + 2048 * m := by exact_mod_cast hC
    omega
  have hterm : ∀ j : Fin SIZE,
      a * (-1) ^ (j : ℕ) *
        Complex.exp (-(2 * (Real.pi : ℂ) * Complex.I) * ((j : ℕ) : ℂ) * (k : ℂ) /
          ((SIZE : ℕ) : ℂ)) = a * (-e) ^ (j : ℕ) := by
    intro j
    have harg : -(2 * (Real.pi : ℂ) * Complex.I) * ((j : ℕ) : ℂ) * (k : ℂ) /
        ((SIZE : ℕ) : ℂ) = ((j : ℕ) : ℂ) * z := by
      rw [hz]; ring
    rw [harg, Complex.exp_nat_mul, ← he, neg_pow]
    ring
  rw [dft]
  simp only [hterm]
  rw [← Finset.mul_sum]
  have hgeom : ∑ j : Fin SIZE, (-e) ^ (j : ℕ) = 0 := by
    rw [Fin.sum_univ_eq_sum_range (fun i => (-e) ^ i) SIZE, geom_sum_eq hne]
    have hpowe : (-e) ^ SIZE = 1 := by
      have heven : Even SIZE := ⟨512, by norm_num [SIZE]⟩
      rw [heven.neg_pow, he, ← Complex.exp_nat_mul]
      have harg2 : ((SIZE : ℕ) : ℂ) * z = ((-(k : ℤ) : ℤ) : ℂ) * (2 * (Real.pi : ℂ) * Complex.I) := by
        rw [hz, hSIZE]
        push_cast
        ring
      rw [harg2, Complex.exp_int_mul_two_pi_mul_I]
    rw [hpowe]
    simp
  rw [hgeom, mul_zero]

/-- At the Nyquist bin 512 the DFT of the alternating signal
`j ↦ a * (-1)^j` is `1024 * a`: the whole energy of the signal. -/
lemma dft_alternating_nyquist (a : ℂ) :
    dft SIZE (fun j => a * (-1) ^ (j : ℕ)) 512 = ((SIZE : ℕ) : ℂ) * a := by
  have hSIZE : ((SIZE : ℕ) : ℂ) = 1024 := by norm_num [SIZE]
  have hterm : ∀ j : Fin SIZE,
      a * (-1) ^ (j : ℕ) *
        Complex.exp (-(2 * (Real.pi : ℂ) * Complex.I) * ((j : ℕ) : ℂ) * ((512 : ℕ) : ℂ) /
          ((SIZE : ℕ) : ℂ)) = a := by
    intro j
    have harg : -(2 * (Real.pi : ℂ) * Complex.I) * ((j : ℕ) : ℂ) * ((512 : ℕ) : ℂ) /
        ((SIZE : ℕ) : ℂ) = ((j : ℕ) : ℂ) * (-((Real.pi : ℂ) * Complex.I)) := by
      rw [hSIZE]
      push_cast
      ring
    rw [harg, Complex.exp_nat_mul]
    have hexp : Complex.exp (-((Real.pi : ℂ) * Complex.I)) = -1 := by
      rw [Complex.exp_neg, Complex.exp_pi_mul_I]
      norm_num
    rw [hexp]
    have hsq : ((-1 : ℂ)) ^ (j : ℕ) * ((-1 : ℂ)) ^ (j : ℕ) = 1 := by
      rw [← mul_pow]
      norm_num
    calc a * (-1) ^ (j : ℕ) * (-1) ^ (j : ℕ)
        = a * ((-1 : ℂ) ^ (j : ℕ) * (-1 : ℂ) ^ (j : ℕ)) := by ring
      _ = a := by rw [hsq, mul_one]
  rw [dft]
  simp only [hterm]
  rw [Finset.sum_const, Finset.card_univ, Fintype.card_fin, nsmul_eq_mul]

/-- The complex input handed to the FFT for the alternating buffer is
the pure Nyquist-frequency signal `j ↦ -(65535/2) * (-1)^j`. -/
lemma alt_fft_input :
    (fun j : Fin SIZE =>
        ((((normalize_slice (widenSamples altBuf)).1.getD (j : ℕ) 0 : ℚ) : ℝ) : ℂ)) =
      fun j : Fin SIZE => (-(65535 / 2) : ℂ) * (-1) ^ (j : ℕ) := by
  funext j
  have h1 : (normalize_slice (widenSamples altBuf)).1 = List.ofFn altNorm := by
    rw [alt_normalized]
  rw [h1, getD_ofFn]
  exact altNorm_cast j

/-- C8 counterexample: for the alternating buffer
`[0, 65535, 0, 65535, ...]`, the reported magnitude at the claimed
peak bin 511 is exactly `0` — identical to bin 0 — so the spectrum has
no strong peak at the Nyquist-adjacent bin 511. -/
theorem alternating_no_peak_at_bin_511 :
    pipelineMagnitudes altBuf (511 : Fin 512) = 0 ∧
    pipelineMagnitudes altBuf (0 : Fin 512) = 0 := by
  constructor <;>
    · rw [pipelineMagnitudes, pipelineSpectrum, rfft_1024, alt_fft_input,
        dft_alternating _ _ (by norm_num), magnitude_zero]

/-- C8 (amended): for the alternating buffer the pipeline yields mean
exactly `65535/2 = 32767.5`, but every one of the 512 reported bins has
magnitude exactly `0`: the signal's entire energy sits at the Nyquist
bin `N/2 = 512` — where the DFT has magnitude `512 * 65535 = 33553920`
— which is outside the reported range `0..511` (`microfft` packs the
Nyquist component into the imaginary part of bin 0). -/
theorem alternating_buffer_spec :
    (normalize_slice (widenSamples altBuf)).2 = 65535 / 2 ∧
    (∀ k : Fin 512, pipelineMagnitudes altBuf k = 0) ∧
    magnitude (dft SIZE (fun j : Fin SIZE =>
        ((((normalize_slice (widenSamples altBuf)).1.getD (j : ℕ) 0 : ℚ) : ℝ) : ℂ)) 512)
      = 33553920 := by
  refine ⟨by rw [alt_normalized], ?_, ?_⟩
  · intro k
    rw [pipelineMagnitudes, pipelineSpectrum, rfft_1024, alt_fft_input,
      dft_alternating _ _ k.isLt, magnitude_zero]
  · rw [alt_fft_input, dft_alternating_nyquist]
    have hval : ((SIZE : ℕ) : ℂ) * (-(65535 / 2) : ℂ) = ((-33553920 : ℝ) : ℂ) := by
      norm_num [SIZE]
    rw [hval, magnitude, Complex.normSq_ofReal]
    have hsq : ((-33553920 : ℝ)) * (-33553920 : ℝ) = 33553920 * 33553920 := by
      norm_num
    rw [hsq, Real.sqrt_mul_self (by norm_num : (0 : ℝ) ≤ 33553920)]

/-- The observable outputs of `main`'s analysis phase (`src/main.rs`
lines 121-154), computed exactly as the source does: the `u32` fold
`sum` is bound (line 121) and then never used; the logged average is
the mean returned by `normalize_slice` on the widened samples; the
reported per-bin values are the magnitudes of the real FFT of the
normalized slice. -/
noncomputable def mainOutputs (buf : Fin SIZE → ℕ) : ℚ × (Fin 512 → ℝ) :=
  let sum := sumU32 buf
  let samples := widenSamples buf
  let normed := (normalize_slice samples).1
  let mean := (normalize_slice samples).2
  (mean, fun k =>
    magnitude (rfft_1024 (fun j => ((normed.getD (j : ℕ) 0 : ℚ) : ℝ)) k))

/-- The same analysis phase with the value of the `u32` fold replaced
by an arbitrary number `s`. -/
noncomputable def mainOutputsWithSum (s : ℕ) (buf : Fin SIZE → ℕ) :
    ℚ × (Fin 512 → ℝ) :=
  let sum := s
  let samples := widenSamples buf
  let normed := (normalize_slice samples).1
  let mean := (normalize_slice samples).2
  (mean, fun k =>
    magnitude (rfft_1024 (fun j => ((normed.getD (j : ℕ) 0 : ℚ) : ℝ)) k))

/-- C10: the `u32` integer sum folded over the buffer is dead: the
value logged as the average is exactly the `f32`-accumulated mean
returned by `normalize_slice` on the widened samples, the reported
magnitudes are those of the pipeline spectrum, and replacing the `u32`
sum by any value whatsoever leaves every output of `main`
unchanged. -/
theorem outputs_independent_of_u32_sum (buf : Fin SIZE → ℕ) :
    (mainOutputs buf).1 = (normalize_slice (widenSamples buf)).2 ∧
    (∀ k : Fin 512, (mainOutputs buf).2 k = pipelineMagnitudes buf k) ∧
    (∀ s : ℕ, mainOutputsWithSum s buf = mainOutputs buf) :=
  ⟨rfl, fun _ => rfl, fun _ => rfl⟩
